import Mathlib

/-!
Shallow embedding of `terminalhistory.py`: the control-code helper
functions `handle_bs`, `handle_cr`, `handle_nl` and the stateful
`_record` methods of `TempHistory` and `TerminalHistory`, together with
theorems settling the specified properties.

Text is modelled as `List Char`.  A Python operation that can raise an
exception is modelled with an `Option` result, `none` meaning the call
raised.
-/

/-- The backspace character, written "\b" in the Python source. -/
def BS : Char := '\x08'

/-- Model of the Python `str.split(sep)` method for a one-character
separator: splits on every occurrence of `sep`, keeping empty pieces,
and always returns at least one piece. -/
def pysplit (sep : Char) : List Char → List (List Char)
  | [] => [[]]
  | c :: rest =>
    match pysplit sep rest with
    | [] => [[]]
    | h :: t => if c = sep then [] :: h :: t else (c :: h) :: t

/-- Model of the Python `str.lstrip("\b")` call: drop every leading
backspace. -/
def pylstripBS (l : List Char) : List Char := l.dropWhile (fun c => c = BS)

/-- Model of the Python `str.rstrip("\n")` call: drop every trailing
newline. -/
def pyrstripNL (l : List Char) : List Char :=
  (l.reverse.dropWhile (fun c => c = '\n')).reverse

/-- Model of `handle_bs` from the source: `re.sub(".\b", "", text)`.
A single left-to-right pass removes each non-overlapping occurrence of
a non-newline character followed by a backspace; removed spans are not
rescanned. -/
def handle_bs : List Char → List Char
  | [] => []
  | [c] => [c]
  | c1 :: c2 :: rest =>
    if c1 ≠ '\n' ∧ c2 = BS then handle_bs rest
    else c1 :: handle_bs (c2 :: rest)

/-- Model of `handle_cr` from the source: `text.split("\r")[-1]`, the
text after the last carriage return. -/
def handle_cr (l : List Char) : List Char := (pysplit '\r' l).getLastD []

/-- Model of `handle_nl` from the source: split on newlines, resolve
carriage returns then backspaces in each piece, reattach the newline
terminator, and strip the terminator from an unterminated final piece.
The source indexes `text[-1]`, so its only caller `_record` guards
against the empty string; the value at `[]` here is immaterial. -/
def handle_nl (text : List Char) : List (List Char) :=
  let lines := (pysplit '\n' text).map
    (fun line => handle_bs (handle_cr line) ++ ['\n'])
  if text.getLast? = some '\n' then lines.dropLast
  else lines.dropLast ++ [pyrstripNL (lines.getLastD [])]

namespace TempHistory

/-- The `line` attribute of a fresh `TempHistory`: Python `None`. -/
def init : Option (List Char) := none

/-- Model of `TempHistory._record`.  The state is the `line` attribute
(`none` models Python `None`).  The outer `Option` is the exception
monad: `none` means the call raised.  The raise happens at
`self.line[-1]` when the stored line is the empty string. -/
def record (line : Option (List Char)) (text : List Char) :
    Option (Option (List Char)) :=
  if text = [] then some line
  else
    let lines := handle_nl text
    match line with
    | none => some (some (pylstripBS (lines.getLastD [])))
    | some l =>
      match l.getLast? with
      | none => none
      | some c =>
        if c = '\n' then some (some (pylstripBS (lines.getLastD [])))
        else some (some (handle_bs (l ++ lines.getLastD [])))

/-- Run a sequence of `_record` calls from a given state, stopping at
the first raised exception. -/
def runFrom (st : Option (List Char)) : List (List Char) →
    Option (Option (List Char))
  | [] => some st
  | f :: fs =>
    match record st f with
    | none => none
    | some st2 => runFrom st2 fs

/-- Run a sequence of `_record` calls on a fresh tracker. -/
def feedAll (frags : List (List Char)) : Option (Option (List Char)) :=
  runFrom init frags

/-- The spec-level `current_line()` query on the single-line tracker:
the stored line, with a single trailing terminator stripped; `none`
when no line exists yet. -/
def currentLine (line : Option (List Char)) : Option (List Char) :=
  line.map (fun l => if l.getLast? = some '\n' then l.dropLast else l)

/-- Model of the length computation in `_undo_newline`:
`len(self.line)`, raising (`none`) when the line is Python `None`. -/
def undoDisplacement (line : Option (List Char)) : Option Nat :=
  line.map List.length

/-- The undo displacement observed after feeding a fragment sequence to
a fresh tracker. -/
def undoAfter (frags : List (List Char)) : Option Nat :=
  (feedAll frags).bind undoDisplacement

end TempHistory

namespace TerminalHistory

/-- The `lines` attribute of a fresh `TerminalHistory`. -/
def init : List (List Char) := []

/-- Model of the `line` property getter: `self.lines[-1]`, or Python
`None` when the list is empty. -/
def lineGet (lines : List (List Char)) : Option (List Char) :=
  lines.getLast?

/-- Model of the `line` property setter: assign `self.lines[-1]`, a
silent no-op when the list is empty. -/
def lineSet (lines : List (List Char)) (text : List Char) :
    List (List Char) :=
  if lines = [] then lines else lines.dropLast ++ [text]

/-- One iteration of the not-ended loop body in
`TerminalHistory._record`: `self.line += line; self.line =
handle_bs(self.line)`, through the property getter and setter. -/
def recStep (acc : List (List Char)) (seg : List Char) : List (List Char) :=
  lineSet acc (handle_bs ((lineGet acc).getD [] ++ seg))

/-- Model of `TerminalHistory._record`.  The state is the `lines`
list.  `prev_line_ended` is computed once, before the loop; when it is
true every segment is appended (after stripping leading backspaces),
otherwise every segment is folded onto the last stored line.  As in
`TempHistory.record`, the outer `Option` models the `self.line[-1]`
exception on an empty stored line. -/
def record (st : List (List Char)) (text : List Char) :
    Option (List (List Char)) :=
  if text = [] then some st
  else
    let segs := handle_nl text
    match lineGet st with
    | none => some (st ++ segs.map pylstripBS)
    | some l =>
      match l.getLast? with
      | none => none
      | some c =>
        if c = '\n' then some (st ++ segs.map pylstripBS)
        else some (segs.foldl recStep st)

/-- Run a sequence of `_record` calls from a given state, stopping at
the first raised exception. -/
def runFrom (st : List (List Char)) : List (List Char) →
    Option (List (List Char))
  | [] => some st
  | f :: fs =>
    match record st f with
    | none => none
    | some st2 => runFrom st2 fs

/-- Run a sequence of `_record` calls on a fresh retention-mode
tracker. -/
def feedAll (frags : List (List Char)) : Option (List (List Char)) :=
  runFrom init frags

/-- The spec-level `current_line()` query on the retention-mode
tracker: the last stored line with a single trailing terminator
stripped; `none` when no line exists yet. -/
def currentLine (st : List (List Char)) : Option (List Char) :=
  (lineGet st).map (fun l => if l.getLast? = some '\n' then l.dropLast else l)

end TerminalHistory

/-- Helper: the default value of `getLastD` on a nonempty list is a
member of the list. -/
theorem getLastD_mem {α : Type} : ∀ (l : List α) (d : α), l ≠ [] → l.getLastD d ∈ l
  | [], _, h => absurd rfl h
  | a :: t, d, _ => by
    rw [List.getLastD_cons]
    rcases ht : t with _ | ⟨b, u⟩
    · simp
    · exact List.mem_cons_of_mem a (ht ▸ getLastD_mem t a (by simp [ht]))

/-- Helper: `pysplit` always returns at least one piece. -/
theorem pysplit_ne_nil (sep : Char) : ∀ l : List Char, pysplit sep l ≠ []
  | [] => by simp [pysplit]
  | c :: rest => by
    rcases hps : pysplit sep rest with _ | ⟨hd, tl⟩
    · exact absurd hps (pysplit_ne_nil sep rest)
    · simp only [pysplit, hps]
      by_cases hc : c = sep <;> simp [hc]

/-- Helper: no piece produced by `pysplit` contains the separator. -/
theorem pysplit_not_mem_sep (sep : Char) :
    ∀ l : List Char, ∀ p ∈ pysplit sep l, sep ∉ p
  | [] => by simp [pysplit]
  | c :: rest => by
    intro p hp
    rcases hps : pysplit sep rest with _ | ⟨hd, tl⟩
    · exact absurd hps (pysplit_ne_nil sep rest)
    · simp only [pysplit, hps] at hp
      by_cases hc : c = sep
      · simp only [if_pos hc, List.mem_cons] at hp
        rcases hp with h1 | h1 | h1
        · simp [h1]
        · exact pysplit_not_mem_sep sep rest p (by rw [hps]; exact h1 ▸ List.mem_cons_self hd tl)
        · exact pysplit_not_mem_sep sep rest p (by rw [hps]; exact List.mem_cons_of_mem hd h1)
      · simp only [if_neg hc, List.mem_cons] at hp
        rcases hp with h1 | h1
        · intro hmem
          rw [h1] at hmem
          rcases List.mem_cons.1 hmem with h2 | h2
          · exact hc h2.symm
          · exact pysplit_not_mem_sep sep rest hd
              (by rw [hps]; exact List.mem_cons_self hd tl) h2
        · exact pysplit_not_mem_sep sep rest p (by rw [hps]; exact List.mem_cons_of_mem hd h1)

/-- Helper: every character of a `pysplit` piece occurs in the input. -/
theorem pysplit_mem_subset (sep : Char) :
    ∀ l : List Char, ∀ p ∈ pysplit sep l, ∀ c ∈ p, c ∈ l
  | [] => by simp [pysplit]
  | c :: rest => by
    intro p hp d hd
    rcases hps : pysplit sep rest with _ | ⟨hd1, tl⟩
    · exact absurd hps (pysplit_ne_nil sep rest)
    · simp only [pysplit, hps] at hp
      by_cases hc : c = sep
      · simp only [if_pos hc, List.mem_cons] at hp
        rcases hp with h1 | h1 | h1
        · rw [h1] at hd; cases hd
        · exact List.mem_cons_of_mem c
            (pysplit_mem_subset sep rest p (by rw [hps]; exact h1 ▸ List.mem_cons_self hd1 tl) d hd)
        · exact List.mem_cons_of_mem c
            (pysplit_mem_subset sep rest p (by rw [hps]; exact List.mem_cons_of_mem hd1 h1) d hd)
      · simp only [if_neg hc, List.mem_cons] at hp
        rcases hp with h1 | h1
        · rw [h1] at hd
          rcases List.mem_cons.1 hd with h2 | h2
          · exact h2 ▸ List.mem_cons_self c rest
          · exact List.mem_cons_of_mem c
              (pysplit_mem_subset sep rest hd1 (by rw [hps]; exact List.mem_cons_self hd1 tl) d h2)
        · exact List.mem_cons_of_mem c
            (pysplit_mem_subset sep rest p (by rw [hps]; exact List.mem_cons_of_mem hd1 h1) d hd)

/-- Helper: splitting on a character absent from the input returns the
input as the single piece. -/
theorem pysplit_of_not_mem (sep : Char) :
    ∀ l : List Char, sep ∉ l → pysplit sep l = [l]
  | [], _ => rfl
  | c :: rest, h => by
    have hc : c ≠ sep := fun he => h (he ▸ List.mem_cons_self c rest)
    have hr : pysplit sep rest = [rest] :=
      pysplit_of_not_mem sep rest (fun hm => h (List.mem_cons_of_mem c hm))
    simp [pysplit, hr, hc]

/-- Helper: the output of `handle_bs` is a sublist of its input; the
pass only deletes characters. -/
theorem handle_bs_sublist : ∀ l : List Char, List.Sublist (handle_bs l) l
  | [] => by simp [handle_bs]
  | [c] => by simp [handle_bs]
  | c1 :: c2 :: rest => by
    rw [handle_bs]
    by_cases h : c1 ≠ '\n' ∧ c2 = BS
    · rw [if_pos h]
      exact ((handle_bs_sublist rest).cons c2).cons c1
    · rw [if_neg h]
      exact (handle_bs_sublist (c2 :: rest)).cons₂ c1

/-- Helper: characters of the `handle_bs` output occur in the input. -/
theorem handle_bs_mem {l : List Char} {c : Char} (h : c ∈ handle_bs l) : c ∈ l :=
  (handle_bs_sublist l).subset h

/-- Helper: on a backspace-free input, `handle_bs` is the identity. -/
theorem handle_bs_of_not_mem : ∀ l : List Char, BS ∉ l → handle_bs l = l
  | [], _ => rfl
  | [c], _ => rfl
  | c1 :: c2 :: rest, h => by
    have h2 : c2 ≠ BS := fun he =>
      h (he ▸ List.mem_cons_of_mem c1 (List.mem_cons_self c2 rest))
    rw [handle_bs, if_neg (fun hc => h2 hc.2)]
    rw [handle_bs_of_not_mem (c2 :: rest) (fun hm => h (List.mem_cons_of_mem c1 hm))]

/-- Helper: `dropWhile` leaves a list alone when no element satisfies
the predicate. -/
theorem dropWhile_of_forallNot {p : Char → Bool} :
    ∀ l : List Char, (∀ c ∈ l, ¬ p c) → l.dropWhile p = l
  | [], _ => rfl
  | c :: rest, h => by
    have hc : ¬ p c = true := h c (List.mem_cons_self c rest)
    simp [List.dropWhile_cons, hc]

/-- Helper: on a list with no leading-strippable backspace,
`pylstripBS` is the identity when the list holds no backspace at
all. -/
theorem pylstripBS_of_not_mem {l : List Char} (h : BS ∉ l) : pylstripBS l = l :=
  dropWhile_of_forallNot l (fun c hc => by
    simp only [decide_eq_true_eq]
    exact fun he => h (he ▸ hc))

/-- Helper: characters of the `pylstripBS` output occur in the input. -/
theorem pylstripBS_mem {l : List Char} {c : Char} (h : c ∈ pylstripBS l) : c ∈ l :=
  (List.dropWhile_sublist _).subset h

/-- Helper: characters of the `pyrstripNL` output occur in the input. -/
theorem pyrstripNL_mem {l : List Char} {c : Char} (h : c ∈ pyrstripNL l) : c ∈ l := by
  simp only [pyrstripNL, List.mem_reverse] at h
  exact List.mem_reverse.1 ((List.dropWhile_sublist _).subset h)

/-- Helper: stripping trailing newlines from a newline-free list with
one newline appended recovers the list. -/
theorem pyrstripNL_append_nl {l : List Char} (h : '\n' ∉ l) :
    pyrstripNL (l ++ ['\n']) = l := by
  unfold pyrstripNL
  rw [List.reverse_append]
  simp only [List.reverse_cons, List.reverse_nil, List.nil_append, List.singleton_append,
    List.dropWhile_cons]
  simp only [decide_eq_true_eq, if_pos rfl]
  rw [dropWhile_of_forallNot l.reverse
    (fun c hc => by
      simp only [decide_eq_true_eq]
      exact fun he => h (he ▸ List.mem_reverse.1 hc))]
  exact List.reverse_reverse l

/-- Helper: the output of `handle_cr` never contains a carriage
return. -/
theorem handle_cr_not_mem_cr (l : List Char) : '\r' ∉ handle_cr l := by
  unfold handle_cr
  exact pysplit_not_mem_sep '\r' l _ (getLastD_mem _ [] (pysplit_ne_nil '\r' l))

/-- Helper: on a carriage-return-free input, `handle_cr` is the
identity. -/
theorem handle_cr_of_not_mem {l : List Char} (h : '\r' ∉ l) : handle_cr l = l := by
  unfold handle_cr
  rw [pysplit_of_not_mem '\r' l h]
  rfl

/-- Helper: characters of the `handle_cr` output occur in the input. -/
theorem handle_cr_mem {l : List Char} {c : Char} (h : c ∈ handle_cr l) : c ∈ l := by
  unfold handle_cr at h
  exact pysplit_mem_subset '\r' l _ (getLastD_mem _ [] (pysplit_ne_nil '\r' l)) c h

/-- Helper: the last element of a nonempty newline-free list is not a
newline. -/
theorem getLast?_ne_nl {l : List Char} (hne : l ≠ []) (h : '\n' ∉ l) :
    l.getLast? ≠ some '\n' := by
  rw [List.getLast?_eq_getLast_of_ne_nil hne]
  intro he
  exact h (Option.some.inj he ▸ List.getLast_mem hne)

/-- Helper: on a nonempty fragment with no newline, `handle_nl`
returns a single piece, the fragment with carriage returns and then
backspaces resolved. -/
theorem handle_nl_single {l : List Char} (hne : l ≠ []) (h : '\n' ∉ l) :
    handle_nl l = [handle_bs (handle_cr l)] := by
  unfold handle_nl
  rw [pysplit_of_not_mem '\n' l h]
  simp only [List.map_cons, List.map_nil]
  rw [if_neg (getLast?_ne_nl hne h)]
  simp only [List.dropLast_single, List.nil_append, List.getLastD_cons, List.getLastD_nil]
  rw [pyrstripNL_append_nl (fun hm => h (handle_cr_mem (handle_bs_mem hm)))]

/-- Helper: a nonempty fragment free of newline, carriage return and
backspace passes through `handle_nl` unchanged as a single open
piece. -/
theorem handle_nl_clean {l : List Char} (hne : l ≠ []) (hnl : '\n' ∉ l)
    (hcr : '\r' ∉ l) (hbs : BS ∉ l) : handle_nl l = [l] := by
  rw [handle_nl_single hne hnl, handle_cr_of_not_mem hcr, handle_bs_of_not_mem l hbs]

/-- Helper: no piece produced by `handle_nl` contains a carriage
return. -/
theorem handle_nl_no_cr (text : List Char) : ∀ p ∈ handle_nl text, '\r' ∉ p := by
  intro p hp hmem
  have hpiece : ∀ q ∈ (pysplit '\n' text).map
      (fun line => handle_bs (handle_cr line) ++ ['\n']), '\r' ∉ q := by
    intro q hq hqmem
    rcases List.mem_map.1 hq with ⟨piece, _, hpe⟩
    rcases List.mem_append.1 (hpe ▸ hqmem) with h1 | h1
    · exact handle_cr_not_mem_cr piece (handle_bs_mem h1)
    · simp at h1
  unfold handle_nl at hp
  by_cases hend : text.getLast? = some '\n'
  · rw [if_pos hend] at hp
    exact hpiece p ((List.dropLast_sublist _).subset hp) hmem
  · rw [if_neg hend] at hp
    rcases List.mem_append.1 hp with h1 | h1
    · exact hpiece p ((List.dropLast_sublist _).subset h1) hmem
    · rcases List.mem_singleton.1 h1 with rfl
      have hlast := getLastD_mem ((pysplit '\n' text).map
        (fun line => handle_bs (handle_cr line) ++ ['\n'])) []
        (by
          intro he
          exact pysplit_ne_nil '\n' text (List.map_eq_nil_iff.1 he))
      exact hpiece _ hlast (pyrstripNL_mem hmem)

/-- Helper: `_record` on a fresh single-line tracker with a nonempty
control-free fragment stores the fragment itself. -/
theorem temp_record_none_clean {a : List Char} (hne : a ≠ []) (hnl : '\n' ∉ a)
    (hcr : '\r' ∉ a) (hbs : BS ∉ a) :
    TempHistory.record none a = some (some a) := by
  simp only [TempHistory.record, if_neg hne]
  rw [handle_nl_clean hne hnl hcr hbs]
  simp only [List.getLastD_cons, List.getLastD_nil]
  rw [pylstripBS_of_not_mem hbs]

/-- Helper: `_record` on an open control-free stored line with a
nonempty control-free fragment appends the fragment. -/
theorem temp_record_some_clean {l b : List Char} (hlne : l ≠ []) (hlnl : '\n' ∉ l)
    (hbne : b ≠ []) (hbnl : '\n' ∉ b) (hbcr : '\r' ∉ b)
    (hbs : BS ∉ l ++ b) :
    TempHistory.record (some l) b = some (some (l ++ b)) := by
  have hbbs : BS ∉ b := fun hm => hbs (List.mem_append_right l hm)
  simp only [TempHistory.record, if_neg hbne]
  rw [handle_nl_clean hbne hbnl hbcr hbbs]
  rw [List.getLast?_eq_getLast_of_ne_nil hlne]
  have hcne : l.getLast hlne ≠ '\n' := fun he => hlnl (he ▸ List.getLast_mem hlne)
  simp only [List.getLastD_cons, List.getLastD_nil, if_neg hcne]
  rw [handle_bs_of_not_mem _ hbs]

/-- Helper: splitting one control-free fragment across two `feed`
calls leaves the single-line tracker in the same state as one call. -/
theorem temp_feed_split {a b : List Char} (hanl : '\n' ∉ a) (hacr : '\r' ∉ a)
    (habs : BS ∉ a) (hbnl : '\n' ∉ b) (hbcr : '\r' ∉ b) (hbbs : BS ∉ b) :
    TempHistory.feedAll [a, b] = TempHistory.feedAll [a ++ b] := by
  rcases eq_or_ne a [] with rfl | hane
  · simp [TempHistory.feedAll, TempHistory.runFrom, TempHistory.record, TempHistory.init]
  · rcases eq_or_ne b [] with rfl | hbne
    · simp only [TempHistory.feedAll, TempHistory.runFrom, TempHistory.init,
        List.append_nil]
      rw [temp_record_none_clean hane hanl hacr habs]
      simp [TempHistory.runFrom, TempHistory.record]
    · have habnl : '\n' ∉ a ++ b := by
        simp only [List.mem_append]
        exact fun h => h.elim hanl hbnl
      have habcr : '\r' ∉ a ++ b := by
        simp only [List.mem_append]
        exact fun h => h.elim hacr hbcr
      have habbs : BS ∉ a ++ b := by
        simp only [List.mem_append]
        exact fun h => h.elim habs hbbs
      have habne : a ++ b ≠ [] := fun h => hane (List.append_eq_nil.1 h).1
      simp only [TempHistory.feedAll, TempHistory.runFrom, TempHistory.init]
      rw [temp_record_none_clean hane hanl hacr habs,
        temp_record_none_clean habne habnl habcr habbs]
      simp only [TempHistory.runFrom]
      rw [temp_record_some_clean hane hanl hbne hbnl hbcr habbs]

/-- Helper: `_record` on a fresh retention tracker with a nonempty
control-free fragment appends the fragment as the only line. -/
theorem term_record_nil_clean {a : List Char} (hne : a ≠ []) (hnl : '\n' ∉ a)
    (hcr : '\r' ∉ a) (hbs : BS ∉ a) :
    TerminalHistory.record [] a = some [a] := by
  simp only [TerminalHistory.record, if_neg hne, TerminalHistory.lineGet,
    List.getLast?_nil]
  rw [handle_nl_clean hne hnl hcr hbs]
  simp only [List.map_cons, List.map_nil, List.nil_append]
  rw [pylstripBS_of_not_mem hbs]

/-- Helper: `_record` on a retention tracker holding one open
control-free line, fed a nonempty control-free fragment, appends the
fragment to that line. -/
theorem term_record_single_clean {l b : List Char} (hlne : l ≠ []) (hlnl : '\n' ∉ l)
    (hbne : b ≠ []) (hbnl : '\n' ∉ b) (hbcr : '\r' ∉ b)
    (hbs : BS ∉ l ++ b) :
    TerminalHistory.record [l] b = some [l ++ b] := by
  have hbbs : BS ∉ b := fun hm => hbs (List.mem_append_right l hm)
  simp only [TerminalHistory.record, if_neg hbne, TerminalHistory.lineGet,
    List.getLast?_singleton]
  rw [handle_nl_clean hbne hbnl hbcr hbbs]
  rw [List.getLast?_eq_getLast_of_ne_nil hlne]
  have hcne : l.getLast hlne ≠ '\n' := fun he => hlnl (he ▸ List.getLast_mem hlne)
  simp only [if_neg hcne, List.foldl_cons, List.foldl_nil, TerminalHistory.recStep,
    TerminalHistory.lineSet, TerminalHistory.lineGet, List.getLast?_singleton,
    Option.getD_some]
  rw [handle_bs_of_not_mem _ hbs]
  simp

/-- Helper: splitting one control-free fragment across two `feed`
calls leaves the retention tracker in the same state as one call. -/
theorem term_feed_split {a b : List Char} (hanl : '\n' ∉ a) (hacr : '\r' ∉ a)
    (habs : BS ∉ a) (hbnl : '\n' ∉ b) (hbcr : '\r' ∉ b) (hbbs : BS ∉ b) :
    TerminalHistory.feedAll [a, b] = TerminalHistory.feedAll [a ++ b] := by
  rcases eq_or_ne a [] with rfl | hane
  · simp [TerminalHistory.feedAll, TerminalHistory.runFrom, TerminalHistory.record,
      TerminalHistory.init]
  · rcases eq_or_ne b [] with rfl | hbne
    · simp only [TerminalHistory.feedAll, TerminalHistory.runFrom, TerminalHistory.init,
        List.append_nil]
      rw [term_record_nil_clean hane hanl hacr habs]
      simp [TerminalHistory.runFrom, TerminalHistory.record]
    · have habnl : '\n' ∉ a ++ b := by
        simp only [List.mem_append]
        exact fun h => h.elim hanl hbnl
      have habcr : '\r' ∉ a ++ b := by
        simp only [List.mem_append]
        exact fun h => h.elim hacr hbcr
      have habbs : BS ∉ a ++ b := by
        simp only [List.mem_append]
        exact fun h => h.elim habs hbbs
      have habne : a ++ b ≠ [] := fun h => hane (List.append_eq_nil.1 h).1
      simp only [TerminalHistory.feedAll, TerminalHistory.runFrom, TerminalHistory.init]
      rw [term_record_nil_clean hane hanl hacr habs,
        term_record_nil_clean habne habnl habcr habbs]
      simp only [TerminalHistory.runFrom]
      rw [term_record_single_clean hane hanl hbne hbnl hbcr habbs]

/-- Helper: the not-ended loop of `_record` preserves
carriage-return-freeness of every stored line. -/
theorem foldl_recStep_no_cr :
    ∀ (segs : List (List Char)) (st : List (List Char)),
      (∀ l ∈ st, '\r' ∉ l) → (∀ p ∈ segs, '\r' ∉ p) →
      ∀ l ∈ segs.foldl TerminalHistory.recStep st, '\r' ∉ l
  | [], _, hinv, _ => hinv
  | seg :: rest, st, hinv, hsegs => by
    simp only [List.foldl_cons]
    apply foldl_recStep_no_cr rest _ _
      (fun p hp => hsegs p (List.mem_cons_of_mem seg hp))
    intro l hl
    unfold TerminalHistory.recStep TerminalHistory.lineSet at hl
    by_cases hst : st = []
    · rw [if_pos hst] at hl
      exact hinv l hl
    · rw [if_neg hst] at hl
      rcases List.mem_append.1 hl with h1 | h1
      · exact hinv l ((List.dropLast_sublist st).subset h1)
      · rcases List.mem_singleton.1 h1 with rfl
        intro hcr
        rcases List.mem_append.1 (handle_bs_mem hcr) with h2 | h2
        · unfold TerminalHistory.lineGet at h2
          rw [List.getLast?_eq_getLast_of_ne_nil hst] at h2
          exact hinv _ (List.getLast_mem hst) h2
        · exact hsegs seg (List.mem_cons_self seg rest) h2

/-- Helper: one `_record` call on the retention tracker preserves
carriage-return-freeness of every stored line. -/
theorem term_record_no_cr {st st2 : List (List Char)} {text : List Char}
    (hinv : ∀ l ∈ st, '\r' ∉ l)
    (h : TerminalHistory.record st text = some st2) :
    ∀ l ∈ st2, '\r' ∉ l := by
  have happend : ∀ l ∈ st ++ (handle_nl text).map pylstripBS, '\r' ∉ l := by
    intro l hl
    rcases List.mem_append.1 hl with h1 | h1
    · exact hinv l h1
    · rcases List.mem_map.1 h1 with ⟨p, hp, hpe⟩
      exact fun hcr => handle_nl_no_cr text p hp (pylstripBS_mem (hpe ▸ hcr))
  by_cases hte : text = []
  · rw [hte] at h
    simp only [TerminalHistory.record, if_pos rfl] at h
    cases h
    exact hinv
  · simp only [TerminalHistory.record, if_neg hte] at h
    split at h
    · cases h
      exact happend
    · split at h
      · exact Option.noConfusion h
      · split at h
        · cases h
          exact happend
        · cases h
          exact foldl_recStep_no_cr (handle_nl text) st hinv (handle_nl_no_cr text)

/-- Helper: starting from carriage-return-free stored lines, any run of
`_record` calls that completes keeps every stored line
carriage-return-free. -/
theorem term_runFrom_no_cr :
    ∀ (frags : List (List Char)) (st st2 : List (List Char)),
      (∀ l ∈ st, '\r' ∉ l) → TerminalHistory.runFrom st frags = some st2 →
      ∀ l ∈ st2, '\r' ∉ l
  | [], _, _, hinv, h => by
    cases h
    exact hinv
  | f :: fs, st, st2, hinv, h => by
    simp only [TerminalHistory.runFrom] at h
    rcases hr : TerminalHistory.record st f with _ | st3
    · rw [hr] at h
      exact Option.noConfusion h
    · rw [hr] at h
      exact term_runFrom_no_cr fs st3 st2 (term_record_no_cr hinv hr) h

/-- Helper: the not-ended loop of `_record` only rewrites the last
stored line: the result is the old list with its last element
replaced. -/
theorem foldl_recStep_shape :
    ∀ (segs : List (List Char)) (st : List (List Char)), st ≠ [] →
      ∃ x, segs.foldl TerminalHistory.recStep st = st.dropLast ++ [x]
  | [], st, h => ⟨st.getLast h, (List.dropLast_append_getLast h).symm⟩
  | seg :: rest, st, h => by
    simp only [List.foldl_cons]
    have hstep : TerminalHistory.recStep st seg =
        st.dropLast ++ [handle_bs ((TerminalHistory.lineGet st).getD [] ++ seg)] := by
      unfold TerminalHistory.recStep TerminalHistory.lineSet
      rw [if_neg h]
    rw [hstep]
    rcases foldl_recStep_shape rest
        (st.dropLast ++ [handle_bs ((TerminalHistory.lineGet st).getD [] ++ seg)])
        (by simp) with ⟨x, hx⟩
    refine ⟨x, ?_⟩
    rw [hx, List.dropLast_concat]

/-- Helper: a list is its own dropLast followed by its final
one-element tail. -/
theorem dropLast_append_drop {α : Type} (l : List α) :
    l.dropLast ++ l.drop (l.length - 1) = l := by
  rw [List.dropLast_eq_take]
  exact List.take_append_drop _ l

/-- C1, counterexample: splitting a fragment across two `feed` calls
changes `current_line()` whenever a backspace, carriage return or
newline interacts with the call boundary, even though the first
fragment contains no newline terminator.  Shown at five concrete
inputs: a backspace pair in the second fragment, a newline in the
second fragment, a carriage return in the second fragment, a trailing
carriage return in the first fragment (where the two-call run raises),
and a surviving backspace pair in the first fragment. -/
theorem C1_cex :
    (TempHistory.feedAll [['a', 'b'], [BS, BS]]).map TempHistory.currentLine ≠
      (TempHistory.feedAll [['a', 'b'] ++ [BS, BS]]).map TempHistory.currentLine ∧
    (TempHistory.feedAll [['x'], ['y', '\n', 'z']]).map TempHistory.currentLine ≠
      (TempHistory.feedAll [['x'] ++ ['y', '\n', 'z']]).map TempHistory.currentLine ∧
    (TempHistory.feedAll [['x', 'y'], ['\r', 'z']]).map TempHistory.currentLine ≠
      (TempHistory.feedAll [['x', 'y'] ++ ['\r', 'z']]).map TempHistory.currentLine ∧
    (TempHistory.feedAll [['a', 'b', '\r'], ['c']]).map TempHistory.currentLine ≠
      (TempHistory.feedAll [['a', 'b', '\r'] ++ ['c']]).map TempHistory.currentLine ∧
    (TempHistory.feedAll [['a', 'b', BS, BS], ['c']]).map TempHistory.currentLine ≠
      (TempHistory.feedAll [['a', 'b', BS, BS] ++ ['c']]).map TempHistory.currentLine := by
  decide

/-- C1, amended: for fragments `a` and `b` containing no newline,
carriage return or backspace, `feed(a); feed(b)` on a fresh tracker
leaves `current_line()` equal to what a single `feed(a+b)` produces,
in both single-line and retention mode. -/
theorem C1_clean_split_agrees (a b : List Char)
    (h : ∀ c ∈ a ++ b, c ≠ '\n' ∧ c ≠ '\r' ∧ c ≠ BS) :
    (TempHistory.feedAll [a, b]).map TempHistory.currentLine =
      (TempHistory.feedAll [a ++ b]).map TempHistory.currentLine ∧
    (TerminalHistory.feedAll [a, b]).map TerminalHistory.currentLine =
      (TerminalHistory.feedAll [a ++ b]).map TerminalHistory.currentLine := by
  have hanl : '\n' ∉ a := fun hm => (h '\n' (List.mem_append_left b hm)).1 rfl
  have hacr : '\r' ∉ a := fun hm => (h '\r' (List.mem_append_left b hm)).2.1 rfl
  have habs : BS ∉ a := fun hm => (h BS (List.mem_append_left b hm)).2.2 rfl
  have hbnl : '\n' ∉ b := fun hm => (h '\n' (List.mem_append_right a hm)).1 rfl
  have hbcr : '\r' ∉ b := fun hm => (h '\r' (List.mem_append_right a hm)).2.1 rfl
  have hbbs : BS ∉ b := fun hm => (h BS (List.mem_append_right a hm)).2.2 rfl
  exact ⟨congrArg (Option.map TempHistory.currentLine)
      (temp_feed_split hanl hacr habs hbnl hbcr hbbs),
    congrArg (Option.map TerminalHistory.currentLine)
      (term_feed_split hanl hacr habs hbnl hbcr hbbs)⟩

/-- C1, witness: the amended theorem applied to the control-free
fragments "x" and "y". -/
theorem C1_clean_split_agrees_witness :
    (TempHistory.feedAll [['x'], ['y']]).map TempHistory.currentLine =
      (TempHistory.feedAll [['x'] ++ ['y']]).map TempHistory.currentLine ∧
    (TerminalHistory.feedAll [['x'], ['y']]).map TerminalHistory.currentLine =
      (TerminalHistory.feedAll [['x'] ++ ['y']]).map TerminalHistory.currentLine :=
  C1_clean_split_agrees ['x'] ['y'] (by decide)

/-- C2, counterexample: `handle_bs "ab\b\b"` is `"a\b"`, not the empty
string the claim demands, and the result still contains a
backspace. -/
theorem C2_cex :
    handle_bs ['a', 'b', BS, BS] = ['a', BS] ∧
    handle_bs ['a', 'b', BS, BS] ≠ [] ∧
    BS ∈ handle_bs ['a', 'b', BS, BS] := by decide

/-- C2, amended: `handle_bs` removes (non-newline character,
backspace) pairs in one left-to-right non-overlapping pass without
re-matching from the start, so its result is a sublist of the input
but may retain backspaces; `handle_bs "abc\bd" = "abd"` and
`handle_bs "\b\babc" = "abc"` hold, while `handle_bs "ab\b\b" =
"a\b"`. -/
theorem C2_single_pass :
    (∀ l : List Char, List.Sublist (handle_bs l) l) ∧
    handle_bs "abc\x08d".data = "abd".data ∧
    handle_bs "\x08\x08abc".data = "abc".data ∧
    handle_bs "ab\x08\x08".data = "a\x08".data :=
  ⟨handle_bs_sublist, by decide, by decide, by decide⟩

/-- C3, code bug: `feed("\r")` on a fresh tracker stores the empty
line, and the next `feed("x")` raises IndexError while evaluating
`self.line[-1]`, contradicting the never-raises contract. -/
theorem C3_record_raises : TempHistory.feedAll [['\r'], ['x']] = none := by decide

/-- C4, counterexample: stored line content can contain a tab, a
vertical tab, a form feed (none of these is ever resolved) and even a
backspace that survived the single `handle_bs` pass. -/
theorem C4_cex :
    (TerminalHistory.feedAll [['a', '\t', 'b']] = some [['a', '\t', 'b']] ∧
      '\t' ∈ (['a', '\t', 'b'] : List Char)) ∧
    (TerminalHistory.feedAll [['a', '\x0b', 'b']] = some [['a', '\x0b', 'b']] ∧
      '\x0b' ∈ (['a', '\x0b', 'b'] : List Char)) ∧
    (TerminalHistory.feedAll [['a', '\x0c', 'b']] = some [['a', '\x0c', 'b']] ∧
      '\x0c' ∈ (['a', '\x0c', 'b'] : List Char)) ∧
    (TerminalHistory.feedAll [['a', 'b', BS, BS]] = some [['a', BS]] ∧
      BS ∈ (['a', BS] : List Char)) := by decide

/-- C4, amended: after any sequence of `feed` calls that completes,
no stored line contains a carriage-return character; backspace, tab,
vertical-tab and form-feed characters can however survive into stored
content. -/
theorem C4_stored_no_cr (frags : List (List Char)) (st : List (List Char))
    (h : TerminalHistory.feedAll frags = some st) : ∀ l ∈ st, '\r' ∉ l :=
  term_runFrom_no_cr frags [] st (by simp) h

/-- C4, witness: the amended theorem applied to the single fragment
"a". -/
theorem C4_stored_no_cr_witness :
    TerminalHistory.feedAll [['a']] = some [['a']] ∧ '\r' ∉ (['a'] : List Char) :=
  ⟨by decide, C4_stored_no_cr [['a']] [['a']] (by decide) ['a'] (by decide)⟩

/-- C5, counterexample: a single `feed` of
"Hello, \b\b\b\b\b\bGoodbye" to a fresh single-line tracker leaves
`current_line()` equal to "Hello,\bGoodbye", not "Goodbye": the
single regex pass pairs the backspaces with each other rather than
with the preceding letters. -/
theorem C5_cex :
    TempHistory.feedAll ["Hello, \x08\x08\x08\x08\x08\x08Goodbye".data] =
      some (some "Hello,\x08Goodbye".data) ∧
    TempHistory.currentLine (some "Hello,\x08Goodbye".data) ≠
      some "Goodbye".data := by decide

/-- C5, amended: feeding "Hello, \b\b\b\b\b\bGoodbye" in one call
leaves `current_line()` equal to "Hello,\bGoodbye", while feeding
"Hello, " and then "\b\b\b\b\b\bGoodbye" leaves "Hello, Goodbye": the
result depends on how the text is split across `feed` calls and is
never "Goodbye". -/
theorem C5_split_dependent :
    (TempHistory.feedAll ["Hello, \x08\x08\x08\x08\x08\x08Goodbye".data]).map
        TempHistory.currentLine = some (some "Hello,\x08Goodbye".data) ∧
    (TempHistory.feedAll
        ["Hello, ".data, "\x08\x08\x08\x08\x08\x08Goodbye".data]).map
        TempHistory.currentLine = some (some "Hello, Goodbye".data) := by decide

/-- C6, counterexample: after feeding "ab\n" the stored line is
"ab\n"; `undo_displacement` is `len(self.line) = 3`, but
`current_line()` is "ab" of length 2, so the two differ on a closed
line. -/
theorem C6_cex :
    TempHistory.feedAll ["ab\n".data] = some (some "ab\n".data) ∧
    TempHistory.undoAfter ["ab\n".data] = some 3 ∧
    (TempHistory.currentLine (some "ab\n".data)).map List.length = some 2 := by decide

/-- C6, amended: `undo_displacement` returns the length of the raw
stored line, which equals `length(current_line())` whenever the
current line is open (no trailing terminator); in particular it
returns 3 after a fresh tracker is fed "abc" and 2 after a fresh
tracker is fed "abc\b". -/
theorem C6_undo_is_length :
    (∀ l : List Char, l.getLast? ≠ some '\n' →
      TempHistory.undoDisplacement (some l) =
        (TempHistory.currentLine (some l)).map List.length) ∧
    TempHistory.undoAfter ["abc".data] = some 3 ∧
    TempHistory.undoAfter ["abc\x08".data] = some 2 := by
  refine ⟨fun l h => ?_, by decide, by decide⟩
  simp [TempHistory.undoDisplacement, TempHistory.currentLine, if_neg h]

/-- C6, witness: the amended theorem applied to the open line "a". -/
theorem C6_undo_is_length_witness :
    TempHistory.undoDisplacement (some ['a']) =
      (TempHistory.currentLine (some ['a'])).map List.length :=
  C6_undo_is_length.1 ['a'] (by decide)

/-- C7: in retention mode, feeding "line1\nline2\nline3" to a fresh
tracker stores exactly the lines "line1\n", "line2\n" and "line3",
the last one open (no trailing terminator). -/
theorem C7_retention_lines :
    TerminalHistory.feedAll ["line1\nline2\nline3".data] =
      some ["line1\n".data, "line2\n".data, "line3".data] ∧
    ("line3".data).getLast? ≠ some '\n' := by decide

/-- C8, counterexample: before any `feed` call, the line query returns
Python None (modelled `none`), not the empty string, in both
modes. -/
theorem C8_cex :
    TempHistory.currentLine TempHistory.init ≠ some [] ∧
    TerminalHistory.currentLine TerminalHistory.init ≠ some [] := by decide

/-- C8, amended: querying the current line on a fresh tracker returns
None (no line) without raising, in both single-line and retention
mode. -/
theorem C8_fresh_query_none :
    TempHistory.currentLine TempHistory.init = none ∧
    TerminalHistory.currentLine TerminalHistory.init = none := by decide

/-- C9: in retention mode, every completed `feed` call preserves all
stored lines except possibly the last (the old list minus its last
element is an initial segment of the new list) and never removes a
line (the stored count never decreases). -/
theorem C9_frame (st : List (List Char)) (text : List Char)
    (st2 : List (List Char)) (h : TerminalHistory.record st text = some st2) :
    (∃ rest, st2 = st.dropLast ++ rest) ∧ st.length ≤ st2.length := by
  have hself : ∃ rest, st = st.dropLast ++ rest :=
    ⟨st.drop (st.length - 1), (dropLast_append_drop st).symm⟩
  have happend : ∀ tail : List (List Char),
      (∃ rest, st ++ tail = st.dropLast ++ rest) ∧
        st.length ≤ (st ++ tail).length := by
    intro tail
    refine ⟨⟨st.drop (st.length - 1) ++ tail, ?_⟩, by simp⟩
    rw [← List.append_assoc, dropLast_append_drop st]
  by_cases hte : text = []
  · rw [hte] at h
    simp only [TerminalHistory.record, if_pos rfl] at h
    cases h
    exact ⟨hself, le_refl _⟩
  · by_cases hst : st = []
    · subst hst
      simp only [TerminalHistory.record, if_neg hte, TerminalHistory.lineGet,
        List.getLast?_nil] at h
      cases h
      exact happend _
    · simp only [TerminalHistory.record, if_neg hte] at h
      split at h
      · cases h
        exact happend _
      · split at h
        · exact Option.noConfusion h
        · split at h
          · cases h
            exact happend _
          · cases h
            rcases foldl_recStep_shape (handle_nl text) st hst with ⟨x, hx⟩
            rw [hx]
            constructor
            · exact ⟨[x], rfl⟩
            · have h1 : st.dropLast.length = st.length - 1 := List.length_dropLast st
              have h2 : 1 ≤ st.length := List.length_pos.2 hst
              simp only [List.length_append, List.length_singleton, h1]
              omega

/-- C9, witness: the theorem applied to a fresh tracker receiving the
fragment "a". -/
theorem C9_frame_witness :
    (∃ rest, [['a']] = (TerminalHistory.init).dropLast ++ rest) ∧
      (TerminalHistory.init).length ≤ ([[ 'a' ]] : List (List Char)).length :=
  C9_frame TerminalHistory.init ['a'] [['a']] (by decide)

/-- C10: the result of `handle_cr` never contains a carriage return,
and consequently `handle_cr` is idempotent. -/
theorem C10_cr_free_idempotent (t : List Char) :
    '\r' ∉ handle_cr t ∧ handle_cr (handle_cr t) = handle_cr t :=
  ⟨handle_cr_not_mem_cr t, handle_cr_of_not_mem (handle_cr_not_mem_cr t)⟩
